import Mathlib

/-!
Verification development for `scripts/analyze_extensions.py`, the extension
inventory reporter.  The script reads a JSON mapping from extension id to
metadata, builds a sorted list of records, classifies them by keyword
matching, groups duplicate names, and renders a listing document and an
analysis document.  The definitions below are a shallow embedding of that
script: each Lean definition mirrors one construct of the Python source.
-/

/-- Raw JSON value sitting at one key of the input mapping: either a
structured object with the optional metadata fields (`name`, `publisher`,
`version`, `enabled`) or any other JSON value, which the script skips. -/
inductive RawValue where
  | obj (name publisher version : Option String) (enabled : Option Bool)
  | other
deriving DecidableEq, Repr

/-- Test mirroring `isinstance(value, dict)` on a raw mapping value. -/
def RawValue.isObj : RawValue → Bool
  | .obj _ _ _ _ => true
  | .other => false

/-- Normalized extension record, the dict built in the construction loop of
the script (lines 31-39). -/
structure ExtensionRecord where
  id : String
  name : String
  publisher : String
  version : String
  enabled : Bool
deriving DecidableEq, Repr, Inhabited

/-- Record built from one mapping entry whose value is an object, with the
defaults of `value.get`: missing strings become "N/A", missing `enabled`
becomes `true`. -/
def recordOfFields (key : String) (name publisher version : Option String)
    (enabled : Option Bool) : ExtensionRecord :=
  { id := key
    name := name.getD "N/A"
    publisher := publisher.getD "N/A"
    version := version.getD "N/A"
    enabled := enabled.getD true }

/-- Record built from one key/value pair, `none` when the value is not a
structured object. -/
def recordOfEntry : String × RawValue → Option ExtensionRecord
  | (key, .obj n p v en) => some (recordOfFields key n p v en)
  | (_, .other) => none

/-- Construction loop of the script (lines 29-39): walk the mapping in
order, appending a record for every entry whose value is an object. -/
def buildRecords (data : List (String × RawValue)) : List ExtensionRecord :=
  data.foldl (fun acc kv =>
    match kv.2 with
    | .obj n p v en => acc ++ [recordOfFields kv.1 n p v en]
    | .other => acc) []

/-- Lexicographic comparison of character lists by code point, the ordering
Python uses to compare the `name` strings in `extensions.sort`. -/
def lexLE : List Char → List Char → Bool
  | [], _ => true
  | _ :: _, [] => false
  | a :: as, b :: bs => if a = b then lexLE as bs else decide (a < b)

/-- Sort key comparison of `extensions.sort(key=lambda x: x["name"])`. -/
def nameLE (a b : ExtensionRecord) : Bool :=
  lexLE a.name.toList b.name.toList

/-- Stable sort of the record list by name (line 42); Python `list.sort` is
stable, which `List.mergeSort` models. -/
def sortRecords (l : List ExtensionRecord) : List ExtensionRecord :=
  l.mergeSort nameLE

/-- Character list of a string lowered characterwise, modelling `s.lower()`
on the ASCII range that the matched keywords live in. -/
def lowerList (s : String) : List Char :=
  s.toList.map Char.toLower

/-- Substring test, modelling the Python `in` operator on strings. -/
def hasSub (pat : String) (s : List Char) : Bool :=
  decide (pat.toList <:+: s)

/-- Membership test of the `language_exts` comprehension (lines 65-71). -/
def isLanguageExt (e : ExtensionRecord) : Bool :=
  hasSub "language" (lowerList e.id) || hasSub "language" (lowerList e.name)
    || hasSub "syntax" (lowerList e.id)

/-- Membership test of the `theme_exts` comprehension (lines 72-76). -/
def isThemeExt (e : ExtensionRecord) : Bool :=
  hasSub "theme" (lowerList e.id) || hasSub "theme" (lowerList e.name)

/-- Membership test of the `git_exts` comprehension (lines 77-79). -/
def isGitExt (e : ExtensionRecord) : Bool :=
  hasSub "git" (lowerList e.id) || hasSub "git" (lowerList e.name)

/-- Membership test of the `debug_exts` comprehension (lines 80-84). -/
def isDebugExt (e : ExtensionRecord) : Bool :=
  hasSub "debug" (lowerList e.id) || hasSub "debug" (lowerList e.name)

/-- Membership test of the `format_exts` comprehension (lines 85-91); only
the id is inspected. -/
def isFormatExt (e : ExtensionRecord) : Bool :=
  ["formatter", "linter", "prettier", "eslint"].any fun x => hasSub x (lowerList e.id)

/-- Category subset `language_exts`. -/
def language_exts (extensions : List ExtensionRecord) : List ExtensionRecord :=
  extensions.filter isLanguageExt

/-- Category subset `theme_exts`. -/
def theme_exts (extensions : List ExtensionRecord) : List ExtensionRecord :=
  extensions.filter isThemeExt

/-- Category subset `git_exts`. -/
def git_exts (extensions : List ExtensionRecord) : List ExtensionRecord :=
  extensions.filter isGitExt

/-- Category subset `debug_exts`. -/
def debug_exts (extensions : List ExtensionRecord) : List ExtensionRecord :=
  extensions.filter isDebugExt

/-- Category subset `format_exts`. -/
def format_exts (extensions : List ExtensionRecord) : List ExtensionRecord :=
  extensions.filter isFormatExt

/-- Residual count of lines 98-105: total minus the five category sizes,
computed in unbounded integers since it may go negative. -/
def other_count (extensions : List ExtensionRecord) : Int :=
  (extensions.length : Int) - (language_exts extensions).length
    - (theme_exts extensions).length - (git_exts extensions).length
    - (debug_exts extensions).length - (format_exts extensions).length

/-- Disabled records, the `disabled_exts` comprehension (line 120). -/
def disabled_exts (extensions : List ExtensionRecord) : List ExtensionRecord :=
  extensions.filter fun e => !e.enabled

/-- Normalized grouping key of line 132: lowercase the name and drop every
space character, modelling `ext["name"].lower().replace(" ", "")`. -/
def normalizeName (s : String) : List Char :=
  (s.toList.map Char.toLower).filter fun c => c != ' '

/-- One step of the grouping loop (lines 130-135): append the record to the
group of its key, creating the group at the end when the key is new.  This
mirrors insertion into a Python dict, which keeps key insertion order. -/
def insertGroup : List (List Char × List ExtensionRecord) → List Char → ExtensionRecord →
    List (List Char × List ExtensionRecord)
  | [], k, e => [(k, [e])]
  | g :: rest, k, e =>
      if g.1 = k then (g.1, g.2 ++ [e]) :: rest
      else g :: insertGroup rest k e

/-- The `name_groups` dict after the grouping loop, as an ordered
association list. -/
def name_groups (extensions : List ExtensionRecord) : List (List Char × List ExtensionRecord) :=
  extensions.foldl (fun gs e => insertGroup gs (normalizeName e.name) e) []

/-- Contents of the group stored under a key, empty when the key is absent:
lookup in the association list modelling the dict. -/
def groupFor : List (List Char × List ExtensionRecord) → List Char → List ExtensionRecord
  | [], _ => []
  | g :: gs, k => if g.1 = k then g.2 else groupFor gs k

/-- The `duplicates` comprehension (line 137): group values with more than
one member, in dict order. -/
def duplicates (extensions : List ExtensionRecord) : List (List ExtensionRecord) :=
  ((name_groups extensions).map Prod.snd).filter fun g => g.length > 1

/-- Removal tally of lines 189-196: the disabled count when there are
disabled records, plus `len(group) - 1` for every duplicate group. -/
def recommended_removals (extensions : List ExtensionRecord) : Nat :=
  (duplicates extensions).foldl
    (fun acc g => if g.length > 1 then acc + (g.length - 1) else acc)
    (if (disabled_exts extensions).isEmpty then 0 else (disabled_exts extensions).length)

/-- Kept figure of line 205, `len(extensions) - recommended_removals`,
computed in unbounded integers as Python does. -/
def total_kept (extensions : List ExtensionRecord) : Int :=
  (extensions.length : Int) - (recommended_removals extensions : Int)

/-- Left-justified padding to a minimum width, Python's `:<w` format. -/
def padRight (s : String) (w : Nat) : String :=
  s ++ String.mk (List.replicate (w - s.length) ' ')

/-- Rendered id cell of line 56: first 47 characters plus an ellipsis when
the id is longer than 50 characters. -/
def ext_id_cell (e : ExtensionRecord) : String :=
  if e.id.length > 50 then String.mk (e.id.toList.take 47) ++ "..." else e.id

/-- Rendered name cell of line 57: first 32 characters plus an ellipsis
when the name is longer than 35 characters. -/
def name_cell (e : ExtensionRecord) : String :=
  if e.name.length > 35 then String.mk (e.name.toList.take 32) ++ "..." else e.name

/-- Status token of line 55. -/
def statusText (b : Bool) : String :=
  if b then "활성화" else "비활성화"

/-- One table row of the listing (line 58). -/
def renderRow (idx : Nat) (e : ExtensionRecord) : String :=
  padRight (toString idx) 6 ++ " " ++ padRight (ext_id_cell e) 50 ++ " "
    ++ padRight (name_cell e) 35 ++ " " ++ padRight e.publisher 20 ++ " "
    ++ padRight e.version 15 ++ " " ++ padRight (statusText e.enabled) 10 ++ "\n"

/-- Table rows of the listing loop (lines 54-58), numbered from 1. -/
def tableRows (extensions : List ExtensionRecord) : List String :=
  (List.enumFrom 1 extensions).map fun p => renderRow p.1 p.2

/-- Horizontal rule `"=" * 100`. -/
def hrule : String :=
  String.mk (List.replicate 100 '=')

/-- Category breakdown of lines 93-106. -/
def categoryBlock (extensions : List ExtensionRecord) : String :=
  "언어 관련: " ++ toString (language_exts extensions).length ++ "개\n"
    ++ "테마 관련: " ++ toString (theme_exts extensions).length ++ "개\n"
    ++ "Git 관련: " ++ toString (git_exts extensions).length ++ "개\n"
    ++ "디버깅 관련: " ++ toString (debug_exts extensions).length ++ "개\n"
    ++ "포맷팅/린팅 관련: " ++ toString (format_exts extensions).length ++ "개\n"
    ++ "기타: " ++ toString (other_count extensions) ++ "개\n"

/-- Listing document of lines 47-106, parameterized by the formatted
`datetime.now()` string that the header embeds. -/
def listingDoc (now : String) (extensions : List ExtensionRecord) : String :=
  "Cursor 확장 프로그램 목록\n"
    ++ "생성일: " ++ now ++ "\n"
    ++ "총 확장 프로그램 수: " ++ toString extensions.length ++ "\n\n"
    ++ hrule ++ "\n"
    ++ padRight "번호" 6 ++ " " ++ padRight "ID" 50 ++ " " ++ padRight "이름" 35 ++ " "
    ++ padRight "게시자" 20 ++ " " ++ padRight "버전" 15 ++ " " ++ padRight "상태" 10 ++ "\n"
    ++ hrule ++ "\n"
    ++ String.join (tableRows extensions)
    ++ "\n\n" ++ hrule ++ "\n"
    ++ "카테고리별 분류\n"
    ++ hrule ++ "\n\n"
    ++ categoryBlock extensions

/-- Numbered name/id lines used by several analysis sections. -/
def numberedLines (l : List ExtensionRecord) : String :=
  String.join ((List.enumFrom 1 l).map fun p =>
    "   " ++ toString p.1 ++ ". " ++ p.2.name ++ " (" ++ p.2.id ++ ")\n")

/-- Analysis section 1 (lines 120-127): disabled records. -/
def disabledBlock (extensions : List ExtensionRecord) : String :=
  let d := disabled_exts extensions
  "\n1. 비활성화된 확장 프로그램: " ++ toString d.length ++ "개\n"
    ++ if !d.isEmpty then
        numberedLines d ++ "   → 제거 권장: 비활성화된 확장 프로그램은 제거해도 됩니다.\n"
      else "   → 모든 확장 프로그램이 활성화되어 있습니다.\n"

/-- One member line of a duplicate group (lines 142-144). -/
def dupMemberLine (e : ExtensionRecord) : String :=
  "     - " ++ e.id ++ " (" ++ e.publisher ++ ", v" ++ e.version ++ ") "
    ++ (if e.enabled then "[활성화]" else "[비활성화]") ++ "\n"

/-- One duplicate group paragraph (lines 140-145). -/
def dupGroupBlock (idx : Nat) (group : List ExtensionRecord) : String :=
  "   그룹 " ++ toString idx ++ ": " ++ (group.headD default).name ++ " ("
    ++ toString group.length ++ "개 버전)\n"
    ++ String.join (group.map dupMemberLine)
    ++ "   → 하나만 유지하고 나머지는 제거 권장\n"

/-- Analysis section 2 (lines 137-147): duplicate-name groups. -/
def duplicatesBlock (extensions : List ExtensionRecord) : String :=
  let d := duplicates extensions
  "\n2. 중복 가능성 있는 확장 프로그램: " ++ toString d.length ++ "개 그룹\n"
    ++ if !d.isEmpty then
        String.join ((List.enumFrom 1 d).map fun p => dupGroupBlock p.1 p.2)
      else "   → 중복된 확장 프로그램이 없습니다.\n"

/-- Analysis section 3 (lines 150-158): theme count, listing the themes
when there are more than 3. -/
def themeBlock (extensions : List ExtensionRecord) : String :=
  let t := theme_exts extensions
  "\n3. 테마 확장 프로그램: " ++ toString t.length ++ "개\n"
    ++ if t.length > 3 then
        "   → 테마가 많습니다. 자주 사용하지 않는 테마는 제거를 고려해보세요.\n"
          ++ numberedLines t
      else "   → 적절한 수준입니다.\n"

/-- Analysis section 4 (lines 161-165): language count, note only. -/
def languageBlock (extensions : List ExtensionRecord) : String :=
  let l := language_exts extensions
  "\n4. 언어 확장 프로그램: " ++ toString l.length ++ "개\n"
    ++ if l.length > 10 then
        "   → 언어 확장 프로그램이 많습니다. 사용하지 않는 언어는 제거를 고려해보세요.\n"
      else "   → 적절한 수준입니다.\n"

/-- Analysis section 5 (lines 168-172): format count, with a listing when
there are more than 5 and nothing otherwise. -/
def formatBlock (extensions : List ExtensionRecord) : String :=
  let f := format_exts extensions
  "\n5. 포맷팅/린팅 관련: " ++ toString f.length ++ "개\n"
    ++ if f.length > 5 then
        "   → 포맷터/린터가 많습니다. 중복 기능이 있는지 확인해보세요.\n" ++ numberedLines f
      else ""

/-- Analysis section 6 (lines 175-179): git count, note only. -/
def gitBlock (extensions : List ExtensionRecord) : String :=
  let g := git_exts extensions
  "\n6. Git 관련: " ++ toString g.length ++ "개\n"
    ++ if g.length > 3 then
        "   → Git 확장 프로그램이 많습니다. 중복 기능이 있는지 확인해보세요.\n"
      else ""

/-- Analysis section 7 (line 182): debug count, no threshold note. -/
def debugBlock (extensions : List ExtensionRecord) : String :=
  "\n7. 디버깅 관련: " ++ toString (debug_exts extensions).length ++ "개\n"

/-- Final summary of lines 185-205 with the removal tally and kept figure. -/
def summaryBlock (extensions : List ExtensionRecord) : String :=
  let d := disabled_exts extensions
  let tally := recommended_removals extensions
  "\n" ++ hrule ++ "\n" ++ "정리 권장 사항\n" ++ hrule ++ "\n"
    ++ (if !d.isEmpty then
          "- 비활성화된 확장 프로그램 " ++ toString d.length ++ "개 제거 권장\n"
        else "")
    ++ (if tally > 0 then
          "- 총 " ++ toString tally ++ "개 정도의 확장 프로그램 제거를 고려해보세요.\n"
        else "- 현재 설치된 확장 프로그램이 적절하게 관리되고 있습니다.\n")
    ++ "\n현재 총 " ++ toString extensions.length ++ "개 중 " ++ toString (total_kept extensions)
    ++ "개 유지 권장\n"

/-- Analysis document of lines 115-205, a function of the record list
alone: no timestamp enters it. -/
def analysisDoc (extensions : List ExtensionRecord) : String :=
  "\n\n" ++ hrule ++ "\n" ++ "불필요한 확장 프로그램 분석\n" ++ hrule ++ "\n"
    ++ disabledBlock extensions ++ duplicatesBlock extensions ++ themeBlock extensions
    ++ languageBlock extensions ++ formatBlock extensions ++ gitBlock extensions
    ++ debugBlock extensions ++ summaryBlock extensions

/-- Hard-coded input path of line 11. -/
def extensions_json_path : String :=
  "C:\\Users\\dalko\\.cursor\\extensions\\extensions.json"

/-- Message of the `FileNotFoundError` raised at line 20. -/
def fileNotFoundMessage : String :=
  "파일을 찾을 수 없습니다: " ++ extensions_json_path

/-- Error file content written by the handler (lines 214-224): the message
followed by the traceback text. -/
def errorFileText (msg trace : String) : String :=
  "오류 발생: " ++ msg ++ "\n" ++ trace

/-- Environment of one run: whether the input path exists, the parsed
mapping when parsing succeeds, the message a parse failure would carry, the
traceback text, whether the best-effort error-file write succeeds, and the
formatted wall-clock time. -/
structure Env where
  fileExists : Bool
  parseResult : Option (List (String × RawValue))
  parseErrorText : String
  traceText : String
  errorWriteOk : Bool
  now : String
deriving DecidableEq, Repr

/-- Observable outcome of one run: exit code and the files written. -/
structure Outcome where
  exitCode : Nat
  listingFile : Option String
  analysisFile : Option String
  errorFile : Option String
deriving DecidableEq, Repr

/-- Outcome of the top-level handler (lines 213-227): exit code 1, with the
error file written only when its own write succeeds. -/
def failureOutcome (env : Env) (msg : String) : Outcome :=
  { exitCode := 1
    listingFile := none
    analysisFile := none
    errorFile := if env.errorWriteOk then some (errorFileText msg env.traceText) else none }

/-- Whole run of the script: existence check, parse, record construction,
sort, then the two documents; any failure reaches the top-level handler. -/
def runProgram (env : Env) : Outcome :=
  if env.fileExists then
    match env.parseResult with
    | some data =>
        let extensions := sortRecords (buildRecords data)
        { exitCode := 0
          listingFile := some (listingDoc env.now extensions)
          analysisFile := some (analysisDoc extensions)
          errorFile := none }
    | none => failureOutcome env env.parseErrorText
  else failureOutcome env fileNotFoundMessage

/-- Demo input mapping used by witnesses: two object entries sharing a
display name and one non-object entry. -/
def demoData : List (String × RawValue) :=
  [("pub.ext1", .obj (some "Alpha Theme") (some "pub") (some "1.0") (some false)),
   ("pub.ext2", .obj (some "Alpha Theme") (some "pub2") (some "2.0") (some true)),
   ("junk", .other)]

theorem buildRecords_foldl (data : List (String × RawValue)) (acc : List ExtensionRecord) :
    data.foldl (fun acc kv =>
      match kv.2 with
      | .obj n p v en => acc ++ [recordOfFields kv.1 n p v en]
      | .other => acc) acc = acc ++ data.filterMap recordOfEntry := by
  induction data generalizing acc with
  | nil => simp
  | cons kv rest ih =>
      obtain ⟨k, v⟩ := kv
      cases v with
      | obj n p vv en => simp [recordOfEntry, ih]
      | other => simp [recordOfEntry, ih]

theorem buildRecords_eq_filterMap (data : List (String × RawValue)) :
    buildRecords data = data.filterMap recordOfEntry := by
  simpa using buildRecords_foldl data []

theorem filterMap_recordOfEntry_length (data : List (String × RawValue)) :
    (data.filterMap recordOfEntry).length = (data.filter fun kv => kv.2.isObj).length := by
  induction data with
  | nil => rfl
  | cons kv rest ih =>
      obtain ⟨k, v⟩ := kv
      cases v with
      | obj n p vv en => simp [recordOfEntry, RawValue.isObj, ih]
      | other => simp [recordOfEntry, RawValue.isObj, ih]

theorem build_count_per_key (data : List (String × RawValue)) (k : String) :
    ((data.filterMap recordOfEntry).filter fun r => r.id = k).length
      = (data.filter fun kv => decide (kv.1 = k) && kv.2.isObj).length := by
  induction data with
  | nil => rfl
  | cons kv rest ih =>
      obtain ⟨k₀, v⟩ := kv
      cases v with
      | obj n p vv en =>
          by_cases hk : k₀ = k
          · subst hk
            simp [recordOfEntry, recordOfFields, RawValue.isObj, ih]
          · simp [recordOfEntry, recordOfFields, RawValue.isObj, hk, ih]
      | other => simp [recordOfEntry, RawValue.isObj, ih]

theorem key_filter_length_one (data : List (String × RawValue)) (k : String) (v : RawValue)
    (hnd : (data.map Prod.fst).Nodup) (hmem : (k, v) ∈ data) (hv : v.isObj = true) :
    (data.filter fun kv => decide (kv.1 = k) && kv.2.isObj).length = 1 := by
  rw [← List.countP_eq_length_filter]
  have h1 : 0 < data.countP fun kv => decide (kv.1 = k) && kv.2.isObj :=
    List.countP_pos_iff.mpr ⟨(k, v), hmem, by simp [hv]⟩
  have h2 : (data.countP fun kv => decide (kv.1 = k) && kv.2.isObj)
      ≤ data.countP fun kv => decide (kv.1 = k) := by
    apply List.countP_mono_left
    intro x _ hx
    simp at hx
    simp [hx.1]
  have h3 : (data.countP fun kv => decide (kv.1 = k)) = 1 := by
    have hk : k ∈ data.map Prod.fst := List.mem_map.mpr ⟨(k, v), hmem, rfl⟩
    have hc := List.count_eq_one_of_mem hnd hk
    rw [List.count, List.countP_map] at hc
    rw [← hc]
    congr 1
  omega

theorem tableRows_length (extensions : List ExtensionRecord) :
    (tableRows extensions).length = extensions.length := by
  simp [tableRows]

theorem sortRecords_length (l : List ExtensionRecord) :
    (sortRecords l).length = l.length := by
  simp [sortRecords]

/-- C1: for every well-formed input mapping (distinct keys), the record
list has exactly one record per key whose value is a structured object,
entries with non-object values are skipped, records carry the field
defaults (spelled out by `recordOfEntry`), and the listing renders exactly
one table row per such record. -/
theorem records_and_rows_match (data : List (String × RawValue))
    (hnd : (data.map Prod.fst).Nodup) :
    buildRecords data = data.filterMap recordOfEntry
    ∧ (∀ k v, (k, v) ∈ data → v.isObj = true →
        ((buildRecords data).filter fun r => r.id = k).length = 1)
    ∧ (tableRows (sortRecords (buildRecords data))).length
        = (data.filter fun kv => kv.2.isObj).length := by
  refine ⟨buildRecords_eq_filterMap data, ?_, ?_⟩
  · intro k v hmem hv
    rw [buildRecords_eq_filterMap, build_count_per_key]
    exact key_filter_length_one data k v hnd hmem hv
  · rw [tableRows_length, sortRecords_length, buildRecords_eq_filterMap,
      filterMap_recordOfEntry_length]

/-- Witness for C1 at the demo mapping. -/
theorem records_and_rows_match_witness :
    (tableRows (sortRecords (buildRecords demoData))).length
      = (demoData.filter fun kv => kv.2.isObj).length :=
  (records_and_rows_match demoData (by decide)).2.2

theorem isEmpty_if_length (l : List ExtensionRecord) :
    (if l.isEmpty then 0 else l.length) = l.length := by
  cases l <;> simp

theorem dup_foldl_sum (L : List (List ExtensionRecord)) (acc : Nat)
    (h : ∀ g ∈ L, g.length > 1) :
    L.foldl (fun a g => if g.length > 1 then a + (g.length - 1) else a) acc
      = acc + (L.map fun g => g.length - 1).sum := by
  induction L generalizing acc with
  | nil => simp
  | cons g rest ih =>
      have hg : g.length > 1 := h g (List.mem_cons_self g rest)
      simp only [List.foldl_cons, if_pos hg, List.map_cons, List.sum_cons]
      rw [ih _ fun g hgm => h g (List.mem_cons_of_mem _ hgm)]
      omega

theorem mem_duplicates_length (extensions : List ExtensionRecord) :
    ∀ g ∈ duplicates extensions, g.length > 1 := by
  intro g hg
  simpa using (List.mem_filter.mp hg).2

/-- C2: the removal tally equals the disabled count plus the sum over
duplicate groups of (group size minus 1) — a record that is both disabled
and in a duplicate group contributes to both summands — and the kept figure
is the total record count minus the tally. -/
theorem tally_and_kept (extensions : List ExtensionRecord) :
    recommended_removals extensions
      = (disabled_exts extensions).length
        + ((duplicates extensions).map fun g => g.length - 1).sum
    ∧ total_kept extensions
      = (extensions.length : Int) - (recommended_removals extensions : Int) := by
  constructor
  · unfold recommended_removals
    rw [dup_foldl_sum _ _ (mem_duplicates_length extensions), isEmpty_if_length]
  · rfl

/-- Case-insensitive occurrence of a (lowercase) keyword in a string: the
keyword is a contiguous substring of the lowered string. -/
def occursIn (pat s : String) : Prop :=
  pat.toList <:+: lowerList s

/-- C3: category membership follows exactly the case-insensitive substring
rules of the spec — language checks id/name plus "syntax" in id, theme,
git and debug check id/name, format checks the four keywords in the id
only — and one record can sit in several categories at once. -/
theorem category_membership (extensions : List ExtensionRecord) (e : ExtensionRecord) :
    (e ∈ language_exts extensions ↔ e ∈ extensions
      ∧ (occursIn "language" e.id ∨ occursIn "language" e.name ∨ occursIn "syntax" e.id))
    ∧ (e ∈ theme_exts extensions ↔ e ∈ extensions
      ∧ (occursIn "theme" e.id ∨ occursIn "theme" e.name))
    ∧ (e ∈ git_exts extensions ↔ e ∈ extensions
      ∧ (occursIn "git" e.id ∨ occursIn "git" e.name))
    ∧ (e ∈ debug_exts extensions ↔ e ∈ extensions
      ∧ (occursIn "debug" e.id ∨ occursIn "debug" e.name))
    ∧ (e ∈ format_exts extensions ↔ e ∈ extensions
      ∧ (occursIn "formatter" e.id ∨ occursIn "linter" e.id
          ∨ occursIn "prettier" e.id ∨ occursIn "eslint" e.id))
    ∧ (∃ r : ExtensionRecord, r ∈ theme_exts [r] ∧ r ∈ git_exts [r]) := by
  refine ⟨?_, ?_, ?_, ?_, ?_, ?_⟩
  · simp [language_exts, isLanguageExt, hasSub, occursIn, List.mem_filter, or_assoc]
  · simp [theme_exts, isThemeExt, hasSub, occursIn, List.mem_filter]
  · simp [git_exts, isGitExt, hasSub, occursIn, List.mem_filter]
  · simp [debug_exts, isDebugExt, hasSub, occursIn, List.mem_filter]
  · simp [format_exts, isFormatExt, hasSub, occursIn, List.mem_filter, or_assoc]
  · exact ⟨ExtensionRecord.mk "pub.git-theme" "x" "p" "v" true, by decide⟩

/-- C4: the residual count is the total minus the sum of the five category
counts, each category count is bounded by the total, and the residual can
go negative on an input whose categories overlap. -/
theorem residual_count_facts (extensions : List ExtensionRecord) :
    other_count extensions
      = (extensions.length : Int)
        - ((language_exts extensions).length + (theme_exts extensions).length
          + (git_exts extensions).length + (debug_exts extensions).length
          + (format_exts extensions).length)
    ∧ (language_exts extensions).length ≤ extensions.length
    ∧ (theme_exts extensions).length ≤ extensions.length
    ∧ (git_exts extensions).length ≤ extensions.length
    ∧ (debug_exts extensions).length ≤ extensions.length
    ∧ (format_exts extensions).length ≤ extensions.length
    ∧ ∃ l : List ExtensionRecord, other_count l < 0 := by
  refine ⟨by unfold other_count; ring, ?_, ?_, ?_, ?_, ?_, ?_⟩
  · exact List.length_filter_le isLanguageExt extensions
  · exact List.length_filter_le isThemeExt extensions
  · exact List.length_filter_le isGitExt extensions
  · exact List.length_filter_le isDebugExt extensions
  · exact List.length_filter_le isFormatExt extensions
  · exact ⟨[ExtensionRecord.mk "git-theme-language-debug-formatter" "N/A" "p" "v" true],
      by decide⟩

theorem lexLE_refl (l : List Char) : lexLE l l = true := by
  induction l with
  | nil => rfl
  | cons a as ih => simp [lexLE, ih]

theorem lexLE_total (xs ys : List Char) : (lexLE xs ys || lexLE ys xs) = true := by
  induction xs generalizing ys with
  | nil => simp [lexLE]
  | cons a as ih =>
      cases ys with
      | nil => simp [lexLE]
      | cons b bs =>
          by_cases hab : a = b
          · subst hab
            simpa [lexLE] using ih bs
          · have h := lt_or_gt_of_ne hab
            simp only [lexLE, if_neg hab, if_neg (Ne.symm hab), Bool.or_eq_true,
              decide_eq_true_eq]
            exact h

theorem lexLE_trans (xs ys zs : List Char) (h1 : lexLE xs ys = true)
    (h2 : lexLE ys zs = true) : lexLE xs zs = true := by
  induction xs generalizing ys zs with
  | nil => rfl
  | cons a as ih =>
      cases ys with
      | nil => simp [lexLE] at h1
      | cons b bs =>
          cases zs with
          | nil => simp [lexLE] at h2
          | cons c cs =>
              by_cases hab : a = b <;> by_cases hbc : b = c
              · subst hab; subst hbc
                simp only [lexLE, if_pos rfl] at h1 h2 ⊢
                exact ih bs cs h1 h2
              · subst hab
                simp only [lexLE, if_neg hbc, decide_eq_true_eq] at h2
                simp only [lexLE, if_neg hbc, decide_eq_true_eq]
                exact h2
              · subst hbc
                simp only [lexLE, if_neg hab, decide_eq_true_eq] at h1
                simp only [lexLE, if_neg hab, decide_eq_true_eq]
                exact h1
              · simp only [lexLE, if_neg hab, decide_eq_true_eq] at h1
                simp only [lexLE, if_neg hbc, decide_eq_true_eq] at h2
                have hac : a < c := lt_trans h1 h2
                simp only [lexLE, if_neg (ne_of_lt hac), decide_eq_true_eq]
                exact hac

theorem nameLE_trans : ∀ a b c : ExtensionRecord,
    nameLE a b = true → nameLE b c = true → nameLE a c = true :=
  fun _ _ _ h1 h2 => lexLE_trans _ _ _ h1 h2

theorem nameLE_total : ∀ a b : ExtensionRecord, (nameLE a b || nameLE b a) = true :=
  fun _ _ => lexLE_total _ _

theorem lexLE_iff_lex_or_eq (xs ys : List Char) :
    lexLE xs ys = true ↔ (List.Lex (· < ·) xs ys ∨ xs = ys) := by
  induction xs generalizing ys with
  | nil =>
      cases ys with
      | nil =>
          constructor
          · intro _; exact Or.inr rfl
          · intro _; rfl
      | cons b bs =>
          constructor
          · intro _; exact Or.inl List.Lex.nil
          · intro _; rfl
  | cons a as ih =>
      cases ys with
      | nil =>
          constructor
          · intro h; simp [lexLE] at h
          · rintro (h | h)
            · cases h
            · exact absurd h (by simp)
      | cons b bs =>
          by_cases hab : a = b
          · subst hab
            simp only [lexLE, eq_self_iff_true, if_true]
            rw [ih bs]
            constructor
            · rintro (h | h)
              · exact Or.inl (List.Lex.cons h)
              · exact Or.inr (by rw [h])
            · rintro (h | h)
              · cases h with
                | cons h => exact Or.inl h
                | rel h => exact absurd h (lt_irrefl a)
              · exact Or.inr (by injection h)
          · simp only [lexLE, if_neg hab, decide_eq_true_eq]
            constructor
            · intro h
              exact Or.inl (List.Lex.rel h)
            · rintro (h | h)
              · cases h with
                | cons h => exact absurd rfl hab
                | rel h => exact h
              · exact absurd (by injection h) hab

/-- C6: sorting the record list yields a list that is non-decreasing by
name under the plain lexicographic code-point ordering (the comparison
`nameLE` agrees with Mathlib's lexicographic order on character lists), is
a permutation of the input, and is stable: records with equal names keep
their relative order. -/
theorem sorted_and_stable (l : List ExtensionRecord) :
    (sortRecords l).Pairwise (fun a b => nameLE a b = true)
    ∧ (∀ n : String, (sortRecords l).filter (fun e => e.name = n)
        = l.filter fun e => e.name = n)
    ∧ (sortRecords l).Perm l
    ∧ (∀ a b : ExtensionRecord, nameLE a b = true
        ↔ (List.Lex (· < ·) a.name.toList b.name.toList ∨ a.name.toList = b.name.toList)) := by
  refine ⟨List.sorted_mergeSort nameLE_trans nameLE_total l, ?_, List.mergeSort_perm l nameLE,
    fun a b => lexLE_iff_lex_or_eq _ _⟩
  intro n
  have hsub : (l.filter fun e => e.name = n).Pairwise (fun a b => nameLE a b = true) := by
    apply List.pairwise_of_forall_mem_list
    intro a ha b hb
    have ha2 : a.name = n := by simpa using (List.mem_filter.mp ha).2
    have hb2 : b.name = n := by simpa using (List.mem_filter.mp hb).2
    simp [nameLE, ha2, hb2, lexLE_refl]
  have h1 : (l.filter fun e => e.name = n).Sublist (sortRecords l) :=
    List.sublist_mergeSort nameLE_trans nameLE_total hsub (List.filter_sublist l)
  have h3 := List.Sublist.filter (fun e => decide (e.name = n)) h1
  rw [List.filter_filter] at h3
  have hself : (l.filter fun e => decide (e.name = n) && decide (e.name = n))
      = l.filter fun e => e.name = n := by
    congr 1
    funext e
    by_cases h : e.name = n <;> simp [h]
  rw [hself] at h3
  have hlen : (l.filter fun e => e.name = n).length
      = ((sortRecords l).filter fun e => e.name = n).length := by
    rw [← List.countP_eq_length_filter, ← List.countP_eq_length_filter]
    exact (List.Perm.countP_eq _ (List.mergeSort_perm l nameLE)).symm
  exact (h3.eq_of_length hlen).symm

theorem groupFor_nil (k : List Char) : groupFor [] k = [] := rfl

theorem groupFor_cons (g : List Char × List ExtensionRecord)
    (gs : List (List Char × List ExtensionRecord)) (k : List Char) :
    groupFor (g :: gs) k = if g.1 = k then g.2 else groupFor gs k := rfl

theorem pair_ext {p : List Char × List ExtensionRecord} {k : List Char}
    {v : List ExtensionRecord} (h1 : p.1 = k) (h2 : p.2 = v) : p = (k, v) := by
  obtain ⟨a, b⟩ := p
  rw [Prod.mk.injEq]
  exact ⟨h1, h2⟩

theorem groupFor_of_not_mem (gs : List (List Char × List ExtensionRecord)) (k : List Char)
    (hk : k ∉ gs.map Prod.fst) : groupFor gs k = [] := by
  induction gs with
  | nil => rfl
  | cons g rest ih =>
      simp only [List.map_cons, List.mem_cons, not_or] at hk
      rw [groupFor_cons, if_neg (fun hh => hk.1 hh.symm)]
      exact ih hk.2

theorem groupFor_of_mem (gs : List (List Char × List ExtensionRecord))
    (hnd : (gs.map Prod.fst).Nodup) (p : List Char × List ExtensionRecord) (hp : p ∈ gs) :
    groupFor gs p.1 = p.2 := by
  induction gs with
  | nil => cases hp
  | cons g rest ih =>
      simp only [List.map_cons] at hnd
      rcases List.mem_cons.mp hp with hp | hp
      · subst hp
        rw [groupFor_cons, if_pos rfl]
      · have hg : g.1 ∉ rest.map Prod.fst := (List.nodup_cons.mp hnd).1
        have hne : g.1 ≠ p.1 := by
          intro hh
          exact hg (hh ▸ List.mem_map_of_mem Prod.fst hp)
        rw [groupFor_cons, if_neg hne]
        exact ih (List.nodup_cons.mp hnd).2 hp

theorem insertGroup_keys (gs : List (List Char × List ExtensionRecord)) (k : List Char)
    (e : ExtensionRecord) :
    (insertGroup gs k e).map Prod.fst
      = if k ∈ gs.map Prod.fst then gs.map Prod.fst else gs.map Prod.fst ++ [k] := by
  induction gs with
  | nil => simp [insertGroup]
  | cons g rest ih =>
      by_cases h : g.1 = k
      · simp [insertGroup, h]
      · have hk2 : ¬ (k = g.1) := fun hh => h hh.symm
        by_cases hk : k ∈ rest.map Prod.fst
        · simp [insertGroup, h, ih, hk, hk2]
        · simp [insertGroup, h, ih, hk, hk2]

theorem insertGroup_keys_nodup (gs : List (List Char × List ExtensionRecord)) (k : List Char)
    (e : ExtensionRecord) (h : (gs.map Prod.fst).Nodup) :
    ((insertGroup gs k e).map Prod.fst).Nodup := by
  rw [insertGroup_keys]
  by_cases hk : k ∈ gs.map Prod.fst
  · simpa [hk] using h
  · simp [hk, List.nodup_append, h]

theorem mem_insertGroup (gs : List (List Char × List ExtensionRecord)) (k : List Char)
    (e : ExtensionRecord) (hnd : (gs.map Prod.fst).Nodup)
    (p : List Char × List ExtensionRecord) :
    p ∈ insertGroup gs k e ↔
      (p ∈ gs ∧ p.1 ≠ k) ∨ (p.1 = k ∧ p.2 = groupFor gs k ++ [e]) := by
  induction gs with
  | nil =>
      simp only [insertGroup, groupFor_nil, List.mem_singleton, List.not_mem_nil,
        false_and, false_or, List.nil_append]
      constructor
      · intro h
        subst h
        exact ⟨rfl, rfl⟩
      · rintro ⟨h1, h2⟩
        exact pair_ext h1 h2
  | cons g rest ih =>
      simp only [List.map_cons] at hnd
      have hg : g.1 ∉ rest.map Prod.fst := (List.nodup_cons.mp hnd).1
      have hrest : (rest.map Prod.fst).Nodup := (List.nodup_cons.mp hnd).2
      by_cases h : g.1 = k
      · subst h
        simp only [insertGroup, if_pos rfl]
        rw [groupFor_cons, if_pos rfl]
        constructor
        · intro hp
          rcases List.mem_cons.mp hp with hp | hp
          · subst hp
            exact Or.inr ⟨rfl, rfl⟩
          · refine Or.inl ⟨List.mem_cons_of_mem _ hp, ?_⟩
            intro hpk
            exact hg (hpk ▸ List.mem_map_of_mem Prod.fst hp)
        · rintro (⟨hp, hne⟩ | ⟨h1, h2⟩)
          · rcases List.mem_cons.mp hp with hp | hp
            · exact absurd (by rw [hp]) hne
            · exact List.mem_cons_of_mem _ hp
          · exact List.mem_cons.mpr (Or.inl (pair_ext h1 h2))
      · simp only [insertGroup, if_neg h]
        rw [groupFor_cons, if_neg h]
        constructor
        · intro hp
          rcases List.mem_cons.mp hp with hp | hp
          · subst hp
            exact Or.inl ⟨List.mem_cons_self _ _, fun hk => h hk⟩
          · rcases (ih hrest).mp hp with ⟨hm, hne⟩ | hr
            · exact Or.inl ⟨List.mem_cons_of_mem _ hm, hne⟩
            · exact Or.inr hr
        · rintro (⟨hp, hne⟩ | hr)
          · rcases List.mem_cons.mp hp with hp | hp
            · exact List.mem_cons.mpr (Or.inl hp)
            · exact List.mem_cons_of_mem _ ((ih hrest).mpr (Or.inl ⟨hp, hne⟩))
          · exact List.mem_cons_of_mem _ ((ih hrest).mpr (Or.inr hr))

theorem groupFor_eq_filter (gs : List (List Char × List ExtensionRecord))
    (L : List ExtensionRecord) (hnd : (gs.map Prod.fst).Nodup)
    (h2 : ∀ p ∈ gs, p.2 = L.filter fun e => normalizeName e.name = p.1)
    (h3 : ∀ k, k ∉ gs.map Prod.fst → L.filter (fun e => normalizeName e.name = k) = [])
    (k : List Char) :
    groupFor gs k = L.filter fun e => normalizeName e.name = k := by
  by_cases hk : k ∈ gs.map Prod.fst
  · rcases List.mem_map.mp hk with ⟨p, hp, hpk⟩
    rw [← hpk, groupFor_of_mem gs hnd p hp]
    exact h2 p hp
  · rw [groupFor_of_not_mem gs k hk, h3 k hk]

theorem name_groups_append_singleton (l : List ExtensionRecord) (e : ExtensionRecord) :
    name_groups (l ++ [e]) = insertGroup (name_groups l) (normalizeName e.name) e := by
  simp [name_groups, List.foldl_append]

theorem name_groups_invariant (extensions : List ExtensionRecord) :
    ((name_groups extensions).map Prod.fst).Nodup
    ∧ (∀ p ∈ name_groups extensions,
        p.2 = extensions.filter fun e => normalizeName e.name = p.1)
    ∧ (∀ k, k ∉ (name_groups extensions).map Prod.fst →
        extensions.filter (fun e => normalizeName e.name = k) = []) := by
  induction extensions using List.reverseRecOn with
  | nil => simp [name_groups]
  | append_singleton l e ih =>
      obtain ⟨ih1, ih2, ih3⟩ := ih
      have hng := name_groups_append_singleton l e
      refine ⟨?_, ?_, ?_⟩
      · rw [hng]
        exact insertGroup_keys_nodup _ _ _ ih1
      · intro p hp
        rw [hng] at hp
        rcases (mem_insertGroup _ _ _ ih1 p).mp hp with ⟨hpm, hne⟩ | ⟨h1, h2⟩
        · have hke : ¬ (normalizeName e.name = p.1) := fun hh => hne hh.symm
          simp [List.filter_append, hke, ih2 p hpm]
        · rw [h2, h1, groupFor_eq_filter _ l ih1 ih2 ih3]
          simp [List.filter_append]
      · intro k hk
        rw [hng, insertGroup_keys] at hk
        by_cases hmem : normalizeName e.name ∈ (name_groups l).map Prod.fst
        · rw [if_pos hmem] at hk
          have hke : ¬ (normalizeName e.name = k) := fun hh => hk (hh ▸ hmem)
          simp [List.filter_append, hke, ih3 k hk]
        · rw [if_neg hmem] at hk
          simp only [List.mem_append, List.mem_singleton, not_or] at hk
          have hke : ¬ (normalizeName e.name = k) := fun hh => hk.2 hh.symm
          simp [List.filter_append, hke, ih3 k hk.1]

theorem flatten_insertGroup (gs : List (List Char × List ExtensionRecord)) (k : List Char)
    (e : ExtensionRecord) :
    ((insertGroup gs k e).map Prod.snd).flatten.Perm (e :: (gs.map Prod.snd).flatten) := by
  induction gs with
  | nil => simp [insertGroup]
  | cons g rest ih =>
      by_cases h : g.1 = k
      · simp only [insertGroup, if_pos h, List.map_cons, List.flatten_cons]
        rw [List.append_assoc, List.singleton_append]
        exact List.perm_middle
      · simp only [insertGroup, if_neg h, List.map_cons, List.flatten_cons]
        exact (List.Perm.append_left g.2 ih).trans List.perm_middle

theorem flatten_name_groups_perm (extensions : List ExtensionRecord) :
    ((name_groups extensions).map Prod.snd).flatten.Perm extensions := by
  induction extensions using List.reverseRecOn with
  | nil => simp [name_groups]
  | append_singleton l e ih =>
      rw [name_groups_append_singleton]
      exact (flatten_insertGroup _ _ _).trans
        ((ih.cons e).trans (List.perm_append_singleton e l).symm)

/-- C10: the normalized-name grouping partitions the record list — keys
are distinct, each group is exactly the sublist of records carrying its
key, the concatenation of all groups is a permutation of the record list,
and the group sizes sum to the total record count. -/
theorem grouping_partitions (extensions : List ExtensionRecord) :
    ((name_groups extensions).map Prod.fst).Nodup
    ∧ (∀ p ∈ name_groups extensions,
        p.2 = extensions.filter fun e => normalizeName e.name = p.1)
    ∧ ((name_groups extensions).map Prod.snd).flatten.Perm extensions
    ∧ (((name_groups extensions).map Prod.snd).map List.length).sum = extensions.length := by
  obtain ⟨h1, h2, h3⟩ := name_groups_invariant extensions
  refine ⟨h1, h2, flatten_name_groups_perm extensions, ?_⟩
  rw [← List.length_flatten]
  exact (flatten_name_groups_perm extensions).length_eq

/-- Records `a` and `b` land in a common group of the grouping. -/
def sameGroup (extensions : List ExtensionRecord) (a b : ExtensionRecord) : Prop :=
  ∃ p ∈ name_groups extensions, a ∈ p.2 ∧ b ∈ p.2

/-- First demo record. -/
def demoRec1 : ExtensionRecord :=
  ExtensionRecord.mk "pub.ext1" "Alpha Theme" "pub" "1.0" false

/-- Second demo record, sharing the first one's display name. -/
def demoRec2 : ExtensionRecord :=
  ExtensionRecord.mk "pub.ext2" "Alpha Theme" "pub2" "2.0" true

/-- Demo record list used by witnesses. -/
def demoRecs : List ExtensionRecord :=
  [demoRec1, demoRec2]

/-- C5: two records share a group exactly when their normalized names
(lowercased, spaces removed) agree; a group is a duplicate group exactly
when it has more than one member; every duplicate group is a filter of the
record list, so members keep the record list's order; "Foo Bar" and
"foobar" share a key, and a lone record forms no duplicate group. -/
theorem duplicate_grouping_spec (extensions : List ExtensionRecord) :
    (∀ a b, a ∈ extensions → b ∈ extensions →
      (sameGroup extensions a b ↔ normalizeName a.name = normalizeName b.name))
    ∧ (∀ g, g ∈ duplicates extensions ↔
        g ∈ (name_groups extensions).map Prod.snd ∧ 1 < g.length)
    ∧ (∀ g ∈ duplicates extensions, ∃ k,
        g = extensions.filter fun e => normalizeName e.name = k)
    ∧ normalizeName "Foo Bar" = normalizeName "foobar"
    ∧ duplicates [ExtensionRecord.mk "a" "Baz" "p" "v" true] = [] := by
  obtain ⟨h1, h2, h3⟩ := name_groups_invariant extensions
  refine ⟨?_, ?_, ?_, by decide, by decide⟩
  · intro a b ha hb
    constructor
    · rintro ⟨p, hp, hap, hbp⟩
      have hfa := h2 p hp
      rw [hfa] at hap hbp
      have ha2 : normalizeName a.name = p.1 := by simpa using (List.mem_filter.mp hap).2
      have hb2 : normalizeName b.name = p.1 := by simpa using (List.mem_filter.mp hbp).2
      rw [ha2, hb2]
    · intro hk
      have hmemk : normalizeName a.name ∈ (name_groups extensions).map Prod.fst := by
        by_contra hno
        have := h3 _ hno
        have ha3 : a ∈ extensions.filter fun e =>
            normalizeName e.name = normalizeName a.name :=
          List.mem_filter.mpr ⟨ha, by simp⟩
        rw [this] at ha3
        cases ha3
      rcases List.mem_map.mp hmemk with ⟨p, hp, hpk⟩
      refine ⟨p, hp, ?_, ?_⟩
      · rw [h2 p hp, hpk]
        exact List.mem_filter.mpr ⟨ha, by simp⟩
      · rw [h2 p hp, hpk]
        exact List.mem_filter.mpr ⟨hb, by simp [hk]⟩
  · intro g
    simp [duplicates, List.mem_filter]
  · intro g hg
    have hgm : g ∈ (name_groups extensions).map Prod.snd :=
      (List.mem_filter.mp hg).1
    rcases List.mem_map.mp hgm with ⟨p, hp, hpg⟩
    exact ⟨p.1, by rw [← hpg]; exact h2 p hp⟩

/-- Witness for C5: the two demo records sharing a display name share a
group exactly when their normalized names agree. -/
theorem duplicate_grouping_spec_witness :
    sameGroup demoRecs demoRec1 demoRec2
      ↔ normalizeName demoRec1.name = normalizeName demoRec2.name :=
  (duplicate_grouping_spec demoRecs).1 demoRec1 demoRec2 (by decide) (by decide)

/-- Witness for C10 at the demo list: the single group is the filter of
the list by its key. -/
theorem grouping_partitions_witness :
    (normalizeName "Alpha Theme", demoRecs).2
      = demoRecs.filter fun e =>
          normalizeName e.name = (normalizeName "Alpha Theme", demoRecs).1 :=
  (grouping_partitions demoRecs).2.1 (normalizeName "Alpha Theme", demoRecs) (by decide)

/-- Property of a string ending in the three-dot ellipsis marker. -/
abbrev endsEllipsis (s : String) : Prop :=
  "...".toList <:+ s.toList

theorem toList_append (s t : String) : (s ++ t).toList = s.toList ++ t.toList := by
  simp [String.toList]

theorem string_length_toList (s : String) : s.length = s.toList.length := rfl

/-- C7 counterexample: a record whose id is the three-character string
"..." is rendered unchanged, so its id cell ends in an ellipsis although
the id's length does not exceed 50; the claimed equivalence between ending
in an ellipsis and exceeding the length limit fails on it. -/
theorem trunc_cells_counterexample :
    endsEllipsis (ext_id_cell (ExtensionRecord.mk "..." "n" "p" "v" true))
      ∧ ¬ (50 < (ExtensionRecord.mk "..." "n" "p" "v" true).id.length) := by
  constructor
  · decide
  · decide

/-- C7 amended: the rendered id cell has length at most 50; when the id is
longer than 50 the cell is the first 47 characters followed by "..." and
so ends in an ellipsis; otherwise the cell is the id unchanged.  Same for
the name cell at 35 with 32 kept characters. -/
theorem trunc_cells_spec (e : ExtensionRecord) :
    (ext_id_cell e).length ≤ 50
    ∧ (50 < e.id.length →
        (ext_id_cell e).toList = e.id.toList.take 47 ++ "...".toList
          ∧ endsEllipsis (ext_id_cell e))
    ∧ (e.id.length ≤ 50 → ext_id_cell e = e.id)
    ∧ (name_cell e).length ≤ 35
    ∧ (35 < e.name.length →
        (name_cell e).toList = e.name.toList.take 32 ++ "...".toList
          ∧ endsEllipsis (name_cell e))
    ∧ (e.name.length ≤ 35 → name_cell e = e.name) := by
  refine ⟨?_, ?_, ?_, ?_, ?_, ?_⟩
  · by_cases h : e.id.length > 50
    · have hc : ext_id_cell e = String.mk (e.id.toList.take 47) ++ "..." := by
        rw [ext_id_cell, if_pos h]
      rw [hc, String.length_append]
      have h47 : (String.mk (e.id.toList.take 47)).length ≤ 47 := by
        rw [string_length_toList]
        exact List.length_take_le 47 e.id.toList
      have h3 : ("..." : String).length = 3 := rfl
      omega
    · rw [ext_id_cell, if_neg h]
      omega
  · intro h
    have hc : ext_id_cell e = String.mk (e.id.toList.take 47) ++ "..." := by
      rw [ext_id_cell, if_pos h]
    constructor
    · rw [hc, toList_append]
      rfl
    · show "...".toList <:+ (ext_id_cell e).toList
      rw [hc, toList_append]
      exact List.suffix_append _ _
  · intro h
    rw [ext_id_cell, if_neg (by omega)]
  · by_cases h : e.name.length > 35
    · have hc : name_cell e = String.mk (e.name.toList.take 32) ++ "..." := by
        rw [name_cell, if_pos h]
      rw [hc, String.length_append]
      have h32 : (String.mk (e.name.toList.take 32)).length ≤ 32 := by
        rw [string_length_toList]
        exact List.length_take_le 32 e.name.toList
      have h3 : ("..." : String).length = 3 := rfl
      omega
    · rw [name_cell, if_neg h]
      omega
  · intro h
    have hc : name_cell e = String.mk (e.name.toList.take 32) ++ "..." := by
      rw [name_cell, if_pos h]
    constructor
    · rw [hc, toList_append]
      rfl
    · show "...".toList <:+ (name_cell e).toList
      rw [hc, toList_append]
      exact List.suffix_append _ _
  · intro h
    rw [name_cell, if_neg (by omega)]

/-- Record with an id of 60 characters, used by the truncation witness. -/
def longIdRec : ExtensionRecord :=
  ExtensionRecord.mk (String.mk (List.replicate 60 'x')) "nm" "p" "v" true

/-- Witness for the amended C7 at a 60-character id. -/
theorem trunc_cells_spec_witness :
    (ext_id_cell longIdRec).toList = longIdRec.id.toList.take 47 ++ "...".toList :=
  ((trunc_cells_spec longIdRec).2.1 (by decide)).1

theorem infix_of_tail_append (a m : String) : m.toList <:+: (a ++ m).toList := by
  rw [toList_append]
  exact (List.suffix_append _ _).isInfix

/-- C8: when the input path does not exist the run fails before any parse
attempt with the file-not-found message, which embeds the attempted path;
the exit code is 1, no output documents are written, the outcome does not
depend on the parse result, and the error file holds the message exactly
when its best-effort write succeeds (its failure changes nothing else). -/
theorem missing_file_behaviour (env : Env) (h : env.fileExists = false) :
    (runProgram env).exitCode = 1
    ∧ (runProgram env).listingFile = none
    ∧ (runProgram env).analysisFile = none
    ∧ extensions_json_path.toList <:+: fileNotFoundMessage.toList
    ∧ (∀ p, runProgram { env with parseResult := p } = runProgram env)
    ∧ (env.errorWriteOk = true →
        (runProgram env).errorFile
            = some (errorFileText fileNotFoundMessage env.traceText)
          ∧ fileNotFoundMessage.toList
              <:+: (errorFileText fileNotFoundMessage env.traceText).toList)
    ∧ (env.errorWriteOk = false → (runProgram env).errorFile = none) := by
  have hrun : runProgram env = failureOutcome env fileNotFoundMessage := by
    rw [runProgram, h]
    simp
  refine ⟨by rw [hrun]; rfl, by rw [hrun]; rfl, by rw [hrun]; rfl, ?_, ?_, ?_, ?_⟩
  · exact infix_of_tail_append "파일을 찾을 수 없습니다: " extensions_json_path
  · intro p
    rw [hrun]
    rw [runProgram]
    simp only [h, Bool.false_eq_true, if_false]
    rfl
  · intro hw
    refine ⟨by rw [hrun]; simp [failureOutcome, hw], ?_⟩
    refine ⟨"오류 발생: ".toList, "\n".toList ++ env.traceText.toList, ?_⟩
    simp [errorFileText, toList_append]
  · intro hw
    rw [hrun]
    simp [failureOutcome, hw]

/-- Environment of a run against a missing input file. -/
def demoEnvMissing : Env :=
  Env.mk false none "" "trace" true "2025-01-27 10:00:00"

/-- Witness for C8: the missing-file run exits with code 1. -/
theorem missing_file_behaviour_witness :
    (runProgram demoEnvMissing).exitCode = 1 :=
  (missing_file_behaviour demoEnvMissing (by decide)).1

/-- C9: two successful runs on the same parsed mapping write identical
analysis documents — the analysis is a deterministic function of the input
with no timestamp in it — while the listing embeds the generation time, so
runs on the same input at different times can produce different listings. -/
theorem analysis_deterministic_listing_not (env1 env2 : Env)
    (h1 : env1.fileExists = true) (h2 : env2.fileExists = true)
    (hp : env1.parseResult = env2.parseResult) :
    (runProgram env1).analysisFile = (runProgram env2).analysisFile
    ∧ ∃ f1 f2 : Env, f1.fileExists = true ∧ f2.fileExists = true
        ∧ f1.parseResult = f2.parseResult
        ∧ (runProgram f1).listingFile ≠ (runProgram f2).listingFile := by
  constructor
  · rw [runProgram, runProgram, h1, h2, hp]
    simp only [if_true]
    cases env2.parseResult with
    | none => rfl
    | some data => rfl
  · refine ⟨Env.mk true (some []) "" "" true "A", Env.mk true (some []) "" "" true "B",
      rfl, rfl, rfl, ?_⟩
    decide

/-- Environment of a successful run at ten in the morning. -/
def demoEnvA : Env :=
  Env.mk true (some demoData) "" "" true "2025-01-27 10:00:00"

/-- Environment of a later successful run on the same input. -/
def demoEnvB : Env :=
  Env.mk true (some demoData) "" "" false "2025-01-27 11:00:00"

/-- Witness for C9: the two demo runs write the same analysis file. -/
theorem analysis_deterministic_witness :
    (runProgram demoEnvA).analysisFile = (runProgram demoEnvB).analysisFile :=
  (analysis_deterministic_listing_not demoEnvA demoEnvB rfl rfl rfl).1
